import Mathlib

/-!
# MEV redistribution simulator — formal model

Shallow embedding of `src/mevDistributionSimulator/mevDistributionSimulator.py`.

Modelling conventions:
* Python floats are modelled as exact rationals (`ℚ`), i.e. ideal real
  arithmetic; spec properties stated "within floating-point tolerance" are
  proved exactly over `ℚ`.
* `np.sort` is modelled by `List.insertionSort (· ≤ ·)` (over a linear order
  the ascending sorted list of given values is unique, so the algorithm used
  does not matter).
* The random draws of the script (stake assignment, MEV values, proposer
  choices) are inputs of the embedded simulator: the accounting loop of
  lines 66–103 is a deterministic function of those draws, and the claims
  under verification quantify over them.
* `root_weights = np.sqrt(stakes)` produces irrational reals; the embedding
  takes the root-weight vector as a parameter (`SimParams.rootWeights`),
  since every claim involving it holds for an arbitrary weight vector with
  the relevant nonzero-sum hypothesis.
-/

namespace MevSim

/-- `np.amin` on a list; junk value `0` on `[]` (the source applies it only
to non-empty arrays). -/
def amin : List ℚ → ℚ
  | [] => 0
  | x :: xs => xs.foldl min x

/-- Cumulative sums with an explicit accumulator (helper for `cumsum`). -/
def cumsumFrom (acc : ℚ) : List ℚ → List ℚ
  | [] => []
  | x :: xs => (acc + x) :: cumsumFrom (acc + x) xs

/-- `np.cumsum`: the list of partial sums. -/
def cumsum (l : List ℚ) : List ℚ := cumsumFrom 0 l

/-- Lines 26–27 of `gini`: if any value is negative, shift the whole array
up by subtracting the minimum. -/
def shifted (arr : List ℚ) : List ℚ :=
  if amin arr < 0 then arr.map (fun x => x - amin arr) else arr

/-- Line 28 of `gini`: add the epsilon term to every entry (the source
hard-codes `eps = 1e-9`; it is kept as a parameter here). -/
def withEps (eps : ℚ) (arr : List ℚ) : List ℚ :=
  (shifted arr).map (fun x => x + eps)

/-- Line 29 of `gini`: `arr_sorted = np.sort(arr)`, ascending. -/
def sortedArr (eps : ℚ) (arr : List ℚ) : List ℚ :=
  (withEps eps arr).insertionSort (· ≤ ·)

/-- The body of `gini` (source lines 23–32) with the epsilon term kept as an
explicit parameter: shift, add `eps`, sort ascending, take cumulative sums
`cum` and return `(n + 1 - 2 * sum(cum) / cum[-1]) / n` where
`n = arr.shape[0]`. -/
def giniEps (eps : ℚ) (arr : List ℚ) : ℚ :=
  ((arr.length : ℚ) + 1 -
      2 * (cumsum (sortedArr eps arr)).sum /
        (cumsum (sortedArr eps arr)).getLastD 0) / (arr.length : ℚ)

/-- `gini` of the source: `giniEps` at the hard-coded epsilon `1e-9`. -/
def gini (arr : List ℚ) : ℚ := giniEps (1 / 1000000000) arr

/-- `np.median` (source line 48): sort ascending; middle element for odd
length, average of the two middle elements for even length. Junk value for
`[]` (the source guarantees `NUM_BLOCKS ≥ 1`). -/
def median (l : List ℚ) : ℚ :=
  let s := l.insertionSort (· ≤ ·)
  let n := l.length
  if n % 2 = 1 then s.getD (n / 2) 0
  else (s.getD (n / 2 - 1) 0 + s.getD (n / 2) 0) / 2

/-- Number of entries of `l` that are `≤ t` (the measurement used by the
median postcondition of the spec). -/
def countLE (t : ℚ) (l : List ℚ) : ℕ := l.countP (fun x => decide (x ≤ t))

/-- The data the main loop consumes besides the per-block draws:
the stake vector, the root-weight vector (`np.sqrt(stakes)` in the source,
kept as a parameter, see module docstring), the threshold (median of the
MEV values in the source) and `EPOCH_SIZE`. -/
structure SimParams where
  stakes : List ℚ
  rootWeights : List ℚ
  threshold : ℚ
  epochSize : ℕ

/-- `total_stake = stakes.sum()` (source line 44). -/
def totalStake (p : SimParams) : ℚ := p.stakes.sum

/-- `total_root_weight = root_weights.sum()` (source line 63). -/
def totalRootWeight (p : SimParams) : ℚ := p.rootWeights.sum

/-- `NUM_VALIDATORS`, which is the size of the stake array by construction
(source line 43). -/
def numValidators (p : SimParams) : ℕ := p.stakes.length

/-- The mutable accounting state of the main loop: the four per-validator
earnings arrays (source lines 51–56) and the three pool balances
(source line 59). -/
structure SimState where
  baseline : List ℚ
  stakeE : List ℚ
  equalE : List ℚ
  rootE : List ℚ
  poolS : ℚ
  poolQ : ℚ
  poolR : ℚ

/-- `surplus = max(0.0, mev - threshold)` (source line 72). -/
def surplusOf (threshold mev : ℚ) : ℚ := max 0 (mev - threshold)

/-- `keep = mev - surplus` (source line 73). -/
def keepOf (threshold mev : ℚ) : ℚ := mev - surplusOf threshold mev

/-- `l[i] += x` on a numpy array: out-of-range indices cannot occur in the
source (`proposer < NUM_VALIDATORS`); `List.set` ignores them. -/
def addAt (l : List ℚ) (i : ℕ) (x : ℚ) : List ℚ := l.set i (l.getD i 0 + x)

/-- The per-block accounting of source lines 71–89: Baseline credits the
full `mev` to the proposer; each pooled policy credits `keep` to the
proposer and adds `surplus` to its pool. -/
def perBlockStep (p : SimParams) (proposer : ℕ) (mev : ℚ) (s : SimState) :
    SimState :=
  let surplus := surplusOf p.threshold mev
  let keep := keepOf p.threshold mev
  { baseline := addAt s.baseline proposer mev
    stakeE := addAt s.stakeE proposer keep
    equalE := addAt s.equalE proposer keep
    rootE := addAt s.rootE proposer keep
    poolS := s.poolS + surplus
    poolQ := s.poolQ + surplus
    poolR := s.poolR + surplus }

/-- The epoch distribution of source lines 93–103: StakePool adds
`stakes * (P / total_stake)` elementwise, EqualPool adds
`P / NUM_VALIDATORS` to every entry, RootStakePool adds
`root_weights * (P / total_root_weight)` elementwise; all three pool
balances are reset to `0.0`; Baseline is untouched. -/
def distribute (p : SimParams) (s : SimState) : SimState :=
  { baseline := s.baseline
    stakeE := List.zipWith (fun e st => e + st * (s.poolS / totalStake p))
      s.stakeE p.stakes
    equalE := s.equalE.map (fun e => e + s.poolQ / (numValidators p : ℚ))
    rootE := List.zipWith (fun e w => e + w * (s.poolR / totalRootWeight p))
      s.rootE p.rootWeights
    poolS := 0
    poolQ := 0
    poolR := 0 }

/-- One full iteration of the main loop at block index `b`: the per-block
step, followed by the epoch distribution when `(b + 1) % EPOCH_SIZE == 0`
(source line 92). -/
def blockStep (p : SimParams) (b proposer : ℕ) (mev : ℚ) (s : SimState) :
    SimState :=
  let s1 := perBlockStep p proposer mev s
  if (b + 1) % p.epochSize = 0 then distribute p s1 else s1

/-- The main loop from block index `b` on, consuming the per-block draws
`(proposer, mev)` in order. -/
def runFrom (p : SimParams) : ℕ → List (ℕ × ℚ) → SimState → SimState
  | _, [], s => s
  | b, (pr, mev) :: rest, s => runFrom p (b + 1) rest (blockStep p b pr mev s)

/-- The all-zero initial state (source lines 51–59). -/
def initState (v : ℕ) : SimState :=
  ⟨List.replicate v 0, List.replicate v 0, List.replicate v 0,
    List.replicate v 0, 0, 0, 0⟩

/-- The whole run of source lines 66–103: the main loop from block 0 on the
all-zero state. There is no final flush after the loop. -/
def run (p : SimParams) (blocks : List (ℕ × ℚ)) : SimState :=
  runFrom p 0 blocks (initState (numValidators p))

/-- Well-formedness of an accounting state: all four earnings arrays have
one entry per validator (as the all-zero initial state does; note
`numValidators p = p.stakes.length` by definition). -/
def goodLengths (p : SimParams) (s : SimState) : Prop :=
  s.baseline.length = numValidators p ∧ s.stakeE.length = numValidators p ∧
    s.equalE.length = numValidators p ∧ s.rootE.length = numValidators p

/-- Small concrete parameter set used to instantiate the general theorems:
two validators with stakes `[1, 3]`, root weights `[1, 2]`, threshold `4`,
epoch size `2`. -/
def pW : SimParams := ⟨[1, 3], [1, 2], 4, 2⟩

/-- Small concrete accounting state used to instantiate the general
theorems. -/
def sW : SimState := ⟨[0, 0], [1, 2], [3, 4], [5, 6], 7, 8, 9⟩

/-- Small concrete block sequence (proposer, MEV value): three blocks, so
with epoch size 2 the last block's surplus stays in the pools. -/
def blocksW : List (ℕ × ℚ) := [(0, 6), (1, 2), (1, 10)]

/-- The configuration constants of source lines 35–40. -/
structure Config where
  numValidatorsC : ℤ
  numBlocksC : ℤ
  epochSizeC : ℤ
  mevDistMean : ℚ
  mevDistSigma : ℚ
  seed : ℤ

/-- The shipped configuration values (source lines 35–40):
`NUM_VALIDATORS = 100`, `NUM_BLOCKS = 2000`, `EPOCH_SIZE = 100`,
`MEV_DIST_MEAN = 1.0`, `MEV_DIST_SIGMA = 1.0`, seed `42`. -/
def defaultConfig : Config := ⟨100, 2000, 100, 1, 1, 42⟩

/-- The configuration-validation behaviour of the parameter-setup section
(source lines 34–48): that section consists only of assignments — it
contains no conditional, no assertion and no raise — so it reports no
configuration error for any configuration. -/
def configCheck (_ : Config) : Option String := none

/-- Validity of a configuration, written from the spec's words (§7): positive
`NUM_VALIDATORS`, `NUM_BLOCKS`, `EPOCH_SIZE` and a positive distribution
scale. -/
def specValidConfig (c : Config) : Prop :=
  0 < c.numValidatorsC ∧ 0 < c.numBlocksC ∧ 0 < c.epochSizeC ∧
    0 < c.mevDistSigma

instance (c : Config) : Decidable (specValidConfig c) := by
  unfold specValidConfig; infer_instance

/-! ## Helper lemmas about the embedded operations -/

theorem length_addAt (l : List ℚ) (i : ℕ) (x : ℚ) :
    (addAt l i x).length = l.length :=
  List.length_set l i _

theorem sum_addAt (l : List ℚ) (i : ℕ) (x : ℚ) (h : i < l.length) :
    (addAt l i x).sum = l.sum + x := by
  induction l generalizing i with
  | nil => simp at h
  | cons a xs ih =>
    cases i with
    | zero => simp [addAt, List.getD]; ring
    | succ j =>
      have hj : j < xs.length := by simpa using h
      simp only [addAt, List.getD_cons_succ, List.set_cons_succ, List.sum_cons]
      have h2 := ih j hj
      simp only [addAt] at h2
      rw [h2]
      ring

theorem keep_add_surplus (t mev : ℚ) : keepOf t mev + surplusOf t mev = mev :=
  sub_add_cancel _ _

theorem sum_zipWith_add_mul (c : ℚ) :
    ∀ (l w : List ℚ), l.length = w.length →
      (List.zipWith (fun e x => e + x * c) l w).sum = l.sum + w.sum * c
  | [], [], _ => by simp
  | [], _ :: _, h => by simp at h
  | _ :: _, [], h => by simp at h
  | a :: l, b :: w, h => by
    have hlen : l.length = w.length := by simpa using h
    simp only [List.zipWith_cons_cons, List.sum_cons,
      sum_zipWith_add_mul c l w hlen]
    ring

theorem sum_map_add_const (l : List ℚ) (c : ℚ) :
    (l.map (fun e => e + c)).sum = l.sum + l.length * c := by
  induction l with
  | nil => simp
  | cons a xs ih => simp [ih]; ring

/-- Sum of the StakePool earnings after a distribution: the whole pool
balance is added (the stake-proportional shares add up to `P`). -/
theorem distribute_stakeE_sum (p : SimParams) (s : SimState)
    (hlen : s.stakeE.length = p.stakes.length) (hS : totalStake p ≠ 0) :
    (distribute p s).stakeE.sum = s.stakeE.sum + s.poolS := by
  simp only [distribute, sum_zipWith_add_mul _ _ _ hlen]
  rw [show p.stakes.sum = totalStake p from rfl, mul_comm,
    div_mul_cancel₀ _ hS]

/-- Sum of the EqualPool earnings after a distribution: the whole pool
balance is added (the `V` equal shares add up to `P`). -/
theorem distribute_equalE_sum (p : SimParams) (s : SimState)
    (hlen : s.equalE.length = numValidators p) (hV : numValidators p ≠ 0) :
    (distribute p s).equalE.sum = s.equalE.sum + s.poolQ := by
  simp only [distribute, sum_map_add_const, hlen]
  rw [mul_div_cancel₀]
  exact_mod_cast hV

/-- Sum of the RootStakePool earnings after a distribution: the whole pool
balance is added (the root-weight-proportional shares add up to `P`). -/
theorem distribute_rootE_sum (p : SimParams) (s : SimState)
    (hlen : s.rootE.length = p.rootWeights.length)
    (hR : totalRootWeight p ≠ 0) :
    (distribute p s).rootE.sum = s.rootE.sum + s.poolR := by
  simp only [distribute, sum_zipWith_add_mul _ _ _ hlen]
  rw [show p.rootWeights.sum = totalRootWeight p from rfl, mul_comm,
    div_mul_cancel₀ _ hR]

/-- Pointwise description of a distribution step at a validator index `v`
that is in range for every array involved. -/
theorem distribute_pointwise (p : SimParams) (s : SimState) (v : ℕ)
    (hs : v < s.stakeE.length) (hs2 : v < p.stakes.length)
    (he : v < s.equalE.length)
    (hr : v < s.rootE.length) (hr2 : v < p.rootWeights.length) :
    (distribute p s).stakeE.getD v 0 =
        s.stakeE.getD v 0 + p.stakes.getD v 0 * (s.poolS / totalStake p) ∧
      (distribute p s).equalE.getD v 0 =
        s.equalE.getD v 0 + s.poolQ / (numValidators p : ℚ) ∧
      (distribute p s).rootE.getD v 0 =
        s.rootE.getD v 0 + p.rootWeights.getD v 0 *
          (s.poolR / totalRootWeight p) := by
  refine ⟨?_, ?_, ?_⟩
  · have h1 : v < (List.zipWith
        (fun e st => e + st * (s.poolS / totalStake p))
        s.stakeE p.stakes).length := by
      rw [List.length_zipWith]; exact lt_min hs hs2
    rw [show (distribute p s).stakeE = List.zipWith
        (fun e st => e + st * (s.poolS / totalStake p))
        s.stakeE p.stakes from rfl,
      List.getD_eq_getElem _ _ h1, List.getElem_zipWith,
      List.getD_eq_getElem _ _ hs, List.getD_eq_getElem _ _ hs2]
  · have h1 : v < (s.equalE.map
        (fun e => e + s.poolQ / (numValidators p : ℚ))).length := by
      rw [List.length_map]; exact he
    rw [show (distribute p s).equalE = s.equalE.map
        (fun e => e + s.poolQ / (numValidators p : ℚ)) from rfl,
      List.getD_eq_getElem _ _ h1, List.getElem_map,
      List.getD_eq_getElem _ _ he]
  · have h1 : v < (List.zipWith
        (fun e w => e + w * (s.poolR / totalRootWeight p))
        s.rootE p.rootWeights).length := by
      rw [List.length_zipWith]; exact lt_min hr hr2
    rw [show (distribute p s).rootE = List.zipWith
        (fun e w => e + w * (s.poolR / totalRootWeight p))
        s.rootE p.rootWeights from rfl,
      List.getD_eq_getElem _ _ h1, List.getElem_zipWith,
      List.getD_eq_getElem _ _ hr, List.getD_eq_getElem _ _ hr2]

theorem goodLengths_perBlockStep (p : SimParams) (pr : ℕ) (mev : ℚ)
    (s : SimState) (h : goodLengths p s) :
    goodLengths p (perBlockStep p pr mev s) := by
  obtain ⟨h1, h2, h3, h4⟩ := h
  exact ⟨by simpa [perBlockStep, length_addAt] using h1,
    by simpa [perBlockStep, length_addAt] using h2,
    by simpa [perBlockStep, length_addAt] using h3,
    by simpa [perBlockStep, length_addAt] using h4⟩

theorem goodLengths_distribute (p : SimParams) (s : SimState)
    (h : goodLengths p s) (hrlen : p.rootWeights.length = numValidators p) :
    goodLengths p (distribute p s) := by
  obtain ⟨h1, h2, h3, h4⟩ := h
  refine ⟨h1, ?_, ?_, ?_⟩
  · show (List.zipWith _ s.stakeE p.stakes).length = numValidators p
    rw [List.length_zipWith, h2]
    exact min_self _
  · show (s.equalE.map _).length = numValidators p
    rw [List.length_map]; exact h3
  · show (List.zipWith _ s.rootE p.rootWeights).length = numValidators p
    rw [List.length_zipWith, h4, hrlen]
    exact min_self _

/-- After the per-block accounting, Baseline's total grew by `mev` and each
pooled policy's total-plus-pool grew by `keep + surplus = mev`. -/
theorem perBlockStep_sums (p : SimParams) (pr : ℕ) (mev : ℚ) (s : SimState)
    (h : goodLengths p s) (hpr : pr < numValidators p) :
    (perBlockStep p pr mev s).baseline.sum = s.baseline.sum + mev ∧
      (perBlockStep p pr mev s).stakeE.sum + (perBlockStep p pr mev s).poolS =
        s.stakeE.sum + s.poolS + mev ∧
      (perBlockStep p pr mev s).equalE.sum + (perBlockStep p pr mev s).poolQ =
        s.equalE.sum + s.poolQ + mev ∧
      (perBlockStep p pr mev s).rootE.sum + (perBlockStep p pr mev s).poolR =
        s.rootE.sum + s.poolR + mev := by
  obtain ⟨h1, h2, h3, h4⟩ := h
  have hks := keep_add_surplus p.threshold mev
  refine ⟨?_, ?_, ?_, ?_⟩
  · rw [show (perBlockStep p pr mev s).baseline =
      addAt s.baseline pr mev from rfl, sum_addAt _ _ _ (h1 ▸ hpr)]
  · rw [show (perBlockStep p pr mev s).stakeE =
      addAt s.stakeE pr (keepOf p.threshold mev) from rfl,
      sum_addAt _ _ _ (h2 ▸ hpr),
      show (perBlockStep p pr mev s).poolS =
        s.poolS + surplusOf p.threshold mev from rfl]
    linarith
  · rw [show (perBlockStep p pr mev s).equalE =
      addAt s.equalE pr (keepOf p.threshold mev) from rfl,
      sum_addAt _ _ _ (h3 ▸ hpr),
      show (perBlockStep p pr mev s).poolQ =
        s.poolQ + surplusOf p.threshold mev from rfl]
    linarith
  · rw [show (perBlockStep p pr mev s).rootE =
      addAt s.rootE pr (keepOf p.threshold mev) from rfl,
      sum_addAt _ _ _ (h4 ▸ hpr),
      show (perBlockStep p pr mev s).poolR =
        s.poolR + surplusOf p.threshold mev from rfl]
    linarith

/-- One full block iteration preserves well-formedness and grows each
policy's total-plus-pool by exactly `mev`. -/
theorem blockStep_sums (p : SimParams) (b pr : ℕ) (mev : ℚ) (s : SimState)
    (h : goodLengths p s) (hpr : pr < numValidators p)
    (hS : totalStake p ≠ 0) (hV : numValidators p ≠ 0)
    (hR : totalRootWeight p ≠ 0)
    (hrlen : p.rootWeights.length = numValidators p) :
    goodLengths p (blockStep p b pr mev s) ∧
      (blockStep p b pr mev s).baseline.sum = s.baseline.sum + mev ∧
      (blockStep p b pr mev s).stakeE.sum + (blockStep p b pr mev s).poolS =
        s.stakeE.sum + s.poolS + mev ∧
      (blockStep p b pr mev s).equalE.sum + (blockStep p b pr mev s).poolQ =
        s.equalE.sum + s.poolQ + mev ∧
      (blockStep p b pr mev s).rootE.sum + (blockStep p b pr mev s).poolR =
        s.rootE.sum + s.poolR + mev := by
  have hgood := goodLengths_perBlockStep p pr mev s h
  obtain ⟨e0, e1, e2, e3⟩ := perBlockStep_sums p pr mev s h hpr
  by_cases hb : (b + 1) % p.epochSize = 0
  · have hd : blockStep p b pr mev s = distribute p (perBlockStep p pr mev s) := by
      rw [blockStep, if_pos hb]
    have hgood2 := hgood
    obtain ⟨g1, g2, g3, g4⟩ := hgood2
    rw [hd]
    refine ⟨goodLengths_distribute p _ hgood hrlen, ?_, ?_, ?_, ?_⟩
    · rw [show (distribute p (perBlockStep p pr mev s)).baseline =
        (perBlockStep p pr mev s).baseline from rfl, e0]
    · rw [distribute_stakeE_sum p _ g2 hS,
        show (distribute p (perBlockStep p pr mev s)).poolS = 0 from rfl]
      linarith
    · rw [distribute_equalE_sum p _ g3 hV,
        show (distribute p (perBlockStep p pr mev s)).poolQ = 0 from rfl]
      linarith
    · rw [distribute_rootE_sum p _ (g4.trans hrlen.symm) hR,
        show (distribute p (perBlockStep p pr mev s)).poolR = 0 from rfl]
      linarith
  · have hd : blockStep p b pr mev s = perBlockStep p pr mev s := by
      rw [blockStep, if_neg hb]
    rw [hd]
    exact ⟨hgood, e0, e1, e2, e3⟩

/-- The main-loop invariant: from any well-formed state, each policy's
total-plus-pool grows by the sum of the consumed MEV values. -/
theorem runFrom_sums (p : SimParams) (hS : totalStake p ≠ 0)
    (hV : numValidators p ≠ 0) (hR : totalRootWeight p ≠ 0)
    (hrlen : p.rootWeights.length = numValidators p) :
    ∀ (blocks : List (ℕ × ℚ)) (b0 : ℕ) (s : SimState),
      goodLengths p s → (∀ pm ∈ blocks, pm.1 < numValidators p) →
      goodLengths p (runFrom p b0 blocks s) ∧
        (runFrom p b0 blocks s).baseline.sum =
          s.baseline.sum + (blocks.map Prod.snd).sum ∧
        (runFrom p b0 blocks s).stakeE.sum + (runFrom p b0 blocks s).poolS =
          s.stakeE.sum + s.poolS + (blocks.map Prod.snd).sum ∧
        (runFrom p b0 blocks s).equalE.sum + (runFrom p b0 blocks s).poolQ =
          s.equalE.sum + s.poolQ + (blocks.map Prod.snd).sum ∧
        (runFrom p b0 blocks s).rootE.sum + (runFrom p b0 blocks s).poolR =
          s.rootE.sum + s.poolR + (blocks.map Prod.snd).sum
  | [], b0, s, hgood, _ => by
    refine ⟨hgood, ?_, ?_, ?_, ?_⟩ <;> simp [runFrom]
  | (pr, mev) :: rest, b0, s, hgood, hprop => by
    have hpr : pr < numValidators p := hprop (pr, mev) (by simp)
    obtain ⟨hg, e0, e1, e2, e3⟩ :=
      blockStep_sums p b0 pr mev s hgood hpr hS hV hR hrlen
    have hrest : ∀ pm ∈ rest, pm.1 < numValidators p :=
      fun pm hm => hprop pm (List.mem_cons_of_mem _ hm)
    obtain ⟨hg2, f0, f1, f2, f3⟩ :=
      runFrom_sums p hS hV hR hrlen rest (b0 + 1) (blockStep p b0 pr mev s)
        hg hrest
    refine ⟨hg2, ?_, ?_, ?_, ?_⟩ <;>
      simp only [runFrom, List.map_cons, List.sum_cons] <;> linarith

/-- Baseline-only main-loop invariant: the Baseline array's length is
preserved and its total grows by the sum of the consumed MEV values —
with no hypothesis on stakes, weights or pools. -/
theorem runFrom_baseline (p : SimParams) :
    ∀ (blocks : List (ℕ × ℚ)) (b0 : ℕ) (s : SimState),
      (∀ pm ∈ blocks, pm.1 < s.baseline.length) →
      (runFrom p b0 blocks s).baseline.length = s.baseline.length ∧
        (runFrom p b0 blocks s).baseline.sum =
          s.baseline.sum + (blocks.map Prod.snd).sum
  | [], b0, s, _ => by
    constructor <;> simp [runFrom]
  | (pr, mev) :: rest, b0, s, hprop => by
    have hpr : pr < s.baseline.length := hprop (pr, mev) (by simp)
    have hbase : (blockStep p b0 pr mev s).baseline =
        addAt s.baseline pr mev := by
      by_cases hb : (b0 + 1) % p.epochSize = 0 <;>
        simp [blockStep, hb, distribute, perBlockStep]
    have hlen : (blockStep p b0 pr mev s).baseline.length =
        s.baseline.length := by rw [hbase, length_addAt]
    obtain ⟨g0, g1⟩ := runFrom_baseline p rest (b0 + 1)
      (blockStep p b0 pr mev s) (fun pm hm => by
        rw [hlen]; exact hprop pm (List.mem_cons_of_mem _ hm))
    constructor
    · simp only [runFrom]
      rw [g0, hlen]
    · simp only [runFrom, List.map_cons, List.sum_cons]
      rw [g1, hbase, sum_addAt _ _ _ hpr]
      ring

/-! ## Helper lemmas about `amin`, `cumsum` and the gini formula -/

theorem foldl_min_le (xs : List ℚ) : ∀ a : ℚ,
    xs.foldl min a ≤ a ∧ ∀ x ∈ xs, xs.foldl min a ≤ x := by
  induction xs with
  | nil => exact fun a => ⟨le_refl a, by simp⟩
  | cons b ys ih =>
    intro a
    obtain ⟨h1, h2⟩ := ih (min a b)
    refine ⟨le_trans h1 (min_le_left a b), ?_⟩
    intro x hx
    rcases List.mem_cons.mp hx with rfl | hx
    · exact le_trans h1 (min_le_right a x)
    · exact h2 x hx

theorem amin_le (l : List ℚ) : ∀ x ∈ l, amin l ≤ x := by
  cases l with
  | nil => simp
  | cons a xs =>
    intro x hx
    rcases List.mem_cons.mp hx with rfl | hx
    · exact (foldl_min_le xs x).1
    · exact (foldl_min_le xs a).2 x hx

theorem foldl_min_mem (xs : List ℚ) : ∀ a : ℚ, xs.foldl min a ∈ a :: xs := by
  induction xs with
  | nil => simp
  | cons b ys ih =>
    intro a
    rcases List.mem_cons.mp (ih (min a b)) with h | h
    · rcases min_choice a b with hm | hm <;> rw [List.foldl_cons, h, hm] <;>
        simp
    · simp [List.foldl_cons, List.mem_cons.mpr (Or.inr h),
        List.mem_cons.mpr (Or.inr (List.mem_cons.mpr (Or.inr h)))]

theorem amin_mem (l : List ℚ) (h : l ≠ []) : amin l ∈ l := by
  cases l with
  | nil => exact absurd rfl h
  | cons a xs => exact foldl_min_mem xs a

theorem cumsumFrom_eq_map (l : List ℚ) : ∀ acc : ℚ,
    cumsumFrom acc l = (cumsum l).map (fun y => acc + y) := by
  induction l with
  | nil => intro acc; rfl
  | cons x xs ih =>
    intro acc
    show (acc + x) :: cumsumFrom (acc + x) xs = _
    rw [ih (acc + x), show cumsum (x :: xs) = (0 + x) :: cumsumFrom (0 + x) xs
        from rfl, zero_add, ih x, List.map_cons, List.map_map]
    refine congrArg₂ _ rfl (congrArg₂ _ ?_ rfl)
    funext y
    simp [add_assoc]

theorem cumsum_cons (a : ℚ) (l : List ℚ) :
    cumsum (a :: l) = a :: (cumsum l).map (fun y => a + y) := by
  show (0 + a) :: cumsumFrom (0 + a) l = _
  rw [zero_add, cumsumFrom_eq_map]

theorem cumsum_length (l : List ℚ) : (cumsum l).length = l.length := by
  induction l with
  | nil => rfl
  | cons a xs ih => rw [cumsum_cons]; simp [ih]

theorem cumsum_sum_cons (a : ℚ) (l : List ℚ) :
    (cumsum (a :: l)).sum = ((l.length : ℚ) + 1) * a + (cumsum l).sum := by
  rw [cumsum_cons, List.sum_cons,
    show ((cumsum l).map (fun y => a + y)) =
      ((cumsum l).map (fun y => y + a)) from by
        refine congrArg₂ _ ?_ rfl; funext y; rw [add_comm],
    sum_map_add_const, cumsum_length]
  ring

theorem getLastD_cumsumFrom :
    ∀ (l : List ℚ) (acc d : ℚ), l ≠ [] →
      (cumsumFrom acc l).getLastD d = acc + l.sum
  | [], _, _, h => absurd rfl h
  | [x], acc, d, _ => by simp [cumsumFrom]
  | x :: y :: xs, acc, d, _ => by
    show ((acc + x) :: cumsumFrom (acc + x) (y :: xs)).getLastD d = _
    rw [List.getLastD_cons,
      getLastD_cumsumFrom (y :: xs) (acc + x) (acc + x) (by simp)]
    simp only [List.sum_cons]
    ring

theorem getLastD_cumsum (l : List ℚ) (h : l ≠ []) :
    (cumsum l).getLastD 0 = l.sum := by
  rw [show cumsum l = cumsumFrom 0 l from rfl, getLastD_cumsumFrom l 0 0 h,
    zero_add]

theorem length_mul_le_sum (a : ℚ) :
    ∀ l : List ℚ, (∀ x ∈ l, a ≤ x) → (l.length : ℚ) * a ≤ l.sum := by
  intro l
  induction l with
  | nil => simp
  | cons b xs ih =>
    intro h
    have hb : a ≤ b := h b (by simp)
    have hx := ih fun x hx => h x (List.mem_cons_of_mem _ hx)
    simp only [List.length_cons, List.sum_cons]
    push_cast
    linarith

/-- Chebyshev-type bound for the gini numerator: for an ascending list,
twice the sum of the partial sums is at most `(n + 1)` times the total. -/
theorem two_cumsum_sum_le (l : List ℚ) (hs : l.Sorted (· ≤ ·)) :
    2 * (cumsum l).sum ≤ ((l.length : ℚ) + 1) * l.sum := by
  induction l with
  | nil => simp [cumsum, cumsumFrom]
  | cons a xs ih =>
    rw [List.sorted_cons] at hs
    obtain ⟨ha, hxs⟩ := hs
    have h1 := ih hxs
    have h2 := length_mul_le_sum a xs ha
    rw [cumsum_sum_cons]
    simp only [List.length_cons, List.sum_cons]
    push_cast
    nlinarith

theorem sum_le_cumsum_sum (l : List ℚ) (h : ∀ x ∈ l, 0 ≤ x) :
    l.sum ≤ (cumsum l).sum := by
  induction l with
  | nil => simp [cumsum, cumsumFrom]
  | cons a xs ih =>
    have ha : 0 ≤ a := h a (by simp)
    have h1 := ih fun x hx => h x (List.mem_cons_of_mem _ hx)
    rw [cumsum_sum_cons, List.sum_cons]
    have hl : (0 : ℚ) ≤ (xs.length : ℚ) := by positivity
    nlinarith

theorem cumsum_sum_replicate (v : ℚ) :
    ∀ n : ℕ, (cumsum (List.replicate n v)).sum =
      v * n * ((n : ℚ) + 1) / 2 := by
  intro n
  induction n with
  | zero => simp [cumsum, cumsumFrom]
  | succ k ih =>
    rw [List.replicate_succ, cumsum_sum_cons, ih, List.length_replicate]
    push_cast
    ring

theorem sortedArr_pos (eps : ℚ) (heps : 0 < eps) (arr : List ℚ) :
    ∀ y ∈ sortedArr eps arr, 0 < y := by
  intro y hy
  rw [sortedArr] at hy
  have hy2 : y ∈ withEps eps arr := (List.mem_insertionSort _).mp hy
  rw [withEps] at hy2
  obtain ⟨z, hz, rfl⟩ := List.mem_map.mp hy2
  have hz0 : 0 ≤ z := by
    rw [shifted] at hz
    by_cases hc : amin arr < 0
    · rw [if_pos hc] at hz
      obtain ⟨w, hw, rfl⟩ := List.mem_map.mp hz
      have := amin_le arr w hw
      linarith
    · rw [if_neg hc] at hz
      push_neg at hc
      exact le_trans hc (amin_le arr z hz)
  linarith

theorem sortedArr_length (eps : ℚ) (arr : List ℚ) :
    (sortedArr eps arr).length = arr.length := by
  rw [sortedArr, List.length_insertionSort, withEps, List.length_map, shifted]
  by_cases hc : amin arr < 0 <;> simp [hc]

theorem sortedArr_sorted (eps : ℚ) (arr : List ℚ) :
    (sortedArr eps arr).Sorted (· ≤ ·) :=
  List.sorted_insertionSort _ _

/-- The gini value lies in `[0, 1)` for every positive epsilon and non-empty
array. -/
theorem giniEps_bounds (eps : ℚ) (heps : 0 < eps) (arr : List ℚ)
    (h : arr ≠ []) : 0 ≤ giniEps eps arr ∧ giniEps eps arr < 1 := by
  have hpos := sortedArr_pos eps heps arr
  have hlen := sortedArr_length eps arr
  have hne : sortedArr eps arr ≠ [] := by
    intro hnil
    apply h
    rw [hnil] at hlen
    exact List.length_eq_zero.mp hlen.symm
  have hsum : 0 < (sortedArr eps arr).sum := List.sum_pos _ hpos hne
  have hlast := getLastD_cumsum _ hne
  have hT1 := two_cumsum_sum_le _ (sortedArr_sorted eps arr)
  have hT2 := sum_le_cumsum_sum _ (fun x hx => le_of_lt (hpos x hx))
  have hn : 0 < (arr.length : ℚ) := by
    exact_mod_cast List.length_pos.mpr h
  rw [hlen] at hT1
  simp only [giniEps]
  rw [hlast]
  constructor
  · apply div_nonneg _ (le_of_lt hn)
    rw [sub_nonneg, div_le_iff hsum]
    linarith
  · rw [div_lt_one hn]
    have hX : 1 < 2 * (cumsum (sortedArr eps arr)).sum /
        (sortedArr eps arr).sum := by
      rw [lt_div_iff hsum, one_mul]
      linarith
    linarith

/-- The gini value of an all-equal non-empty array is exactly `0`, for every
positive epsilon. -/
theorem giniEps_const (eps : ℚ) (heps : 0 < eps) (arr : List ℚ)
    (h : arr ≠ []) (x : ℚ) (hx : ∀ y ∈ arr, y = x) : giniEps eps arr = 0 := by
  obtain ⟨v, hv0, hveq⟩ : ∃ v : ℚ, v ≠ 0 ∧ ∀ y ∈ withEps eps arr, y = v := by
    by_cases hc : amin arr < 0
    · refine ⟨eps, ne_of_gt heps, ?_⟩
      intro y hy
      rw [withEps, shifted, if_pos hc] at hy
      obtain ⟨z, hz, rfl⟩ := List.mem_map.mp hy
      obtain ⟨w, hw, rfl⟩ := List.mem_map.mp hz
      rw [hx w hw, hx _ (amin_mem arr h)]
      ring
    · refine ⟨x + eps, ?_, ?_⟩
      · have hax : amin arr = x := hx _ (amin_mem arr h)
        push_neg at hc
        rw [hax] at hc
        positivity
      · intro y hy
        rw [withEps, shifted, if_neg hc] at hy
        obtain ⟨z, hz, rfl⟩ := List.mem_map.mp hy
        rw [hx z hz]
  have hrep : sortedArr eps arr = List.replicate arr.length v :=
    List.eq_replicate.mpr ⟨sortedArr_length eps arr,
      fun b hb => hveq b ((List.mem_insertionSort _).mp hb)⟩
  have hn : arr.length ≠ 0 := fun h0 => h (List.length_eq_zero.mp h0)
  have hrne : List.replicate arr.length v ≠ [] := by
    intro h0
    exact hn (by simpa using congrArg List.length h0)
  have hnq : (arr.length : ℚ) ≠ 0 := by exact_mod_cast hn
  simp only [giniEps, hrep]
  rw [cumsum_sum_replicate, getLastD_cumsum _ hrne, List.sum_replicate,
    nsmul_eq_mul]
  field_simp
  ring

/-! ## Helper lemmas: scaling every value by a positive constant -/

theorem foldl_min_map_mul (c : ℚ) (hc : 0 ≤ c) (l : List ℚ) : ∀ a : ℚ,
    (l.map (fun x => c * x)).foldl min (c * a) = c * l.foldl min a := by
  induction l with
  | nil => intro a; rfl
  | cons b xs ih =>
    intro a
    simp only [List.map_cons, List.foldl_cons]
    rw [← (monotone_mul_left_of_nonneg hc).map_min, ih (min a b)]

theorem amin_map_mul (c : ℚ) (hc : 0 ≤ c) (l : List ℚ) :
    amin (l.map (fun x => c * x)) = c * amin l := by
  cases l with
  | nil => simp [amin]
  | cons a xs =>
    show (xs.map (fun x => c * x)).foldl min (c * a) = c * xs.foldl min a
    exact foldl_min_map_mul c hc xs a

theorem insertionSort_map_mul (c : ℚ) (hc : 0 < c) (l : List ℚ) :
    (l.map (fun x => c * x)).insertionSort (· ≤ ·) =
      (l.insertionSort (· ≤ ·)).map (fun x => c * x) :=
  (List.map_insertionSort _ _ _ _ (fun a _ b _ => by
    constructor
    · intro h; exact (mul_le_mul_left hc).mpr h
    · intro h; exact (mul_le_mul_left hc).mp h)).symm

theorem cumsumFrom_map_mul (c : ℚ) (l : List ℚ) : ∀ acc : ℚ,
    cumsumFrom (c * acc) (l.map (fun x => c * x)) =
      (cumsumFrom acc l).map (fun x => c * x) := by
  induction l with
  | nil => intro acc; rfl
  | cons x xs ih =>
    intro acc
    show (c * acc + c * x) :: cumsumFrom (c * acc + c * x) _ = _
    rw [← mul_add, ih (acc + x)]
    rfl

theorem cumsum_map_mul (c : ℚ) (l : List ℚ) :
    cumsum (l.map (fun x => c * x)) = (cumsum l).map (fun x => c * x) := by
  have h := cumsumFrom_map_mul c l 0
  rwa [mul_zero] at h

theorem sum_map_mul (c : ℚ) (l : List ℚ) :
    (l.map (fun x => c * x)).sum = c * l.sum := by
  induction l with
  | nil => simp
  | cons a xs ih => simp [ih]; ring

theorem getLastD_map_mul (c : ℚ) : ∀ (l : List ℚ) (d : ℚ),
    (l.map (fun x => c * x)).getLastD (c * d) = c * l.getLastD d
  | [], d => rfl
  | a :: xs, d => by
    simp only [List.map_cons, List.getLastD_cons]
    exact getLastD_map_mul c xs a

/-- In a sorted list, every index bound `m` gives at least `m + 1` entries
that are `≤` any value at least as large as the entry at `m`. -/
theorem countP_ge_of_sorted (s : List ℚ) (hs : s.Sorted (· ≤ ·)) (m : ℕ)
    (hm : m < s.length) (t : ℚ) (ht : s.getD m 0 ≤ t) :
    m + 1 ≤ countLE t s := by
  have hlen : (s.take (m + 1)).length = m + 1 := by
    rw [List.length_take]
    omega
  have hall : ∀ x ∈ s.take (m + 1), (fun x => decide (x ≤ t)) x = true := by
    intro x hx
    obtain ⟨⟨i, hilt⟩, hget⟩ := List.mem_iff_get.mp hx
    have hi : i < m + 1 := hlen ▸ hilt
    have his : i < s.length := by omega
    have htake : (s.take (m + 1)).get ⟨i, hilt⟩ = s.get ⟨i, his⟩ := by
      simp [List.get_eq_getElem, List.getElem_take]
    have hgd : s.getD m 0 = s.get ⟨m, hm⟩ := by
      rw [List.getD_eq_getElem s 0 hm, List.get_eq_getElem]
    have hle : s.get ⟨i, his⟩ ≤ s.get ⟨m, hm⟩ := by
      rcases Nat.lt_or_ge i m with hlt | hge
      · exact hs.rel_get_of_lt
          (show (⟨i, his⟩ : Fin s.length) < ⟨m, hm⟩ from hlt)
      · have him : i = m := by omega
        subst him
        exact le_refl _
    simp only [decide_eq_true_eq]
    calc x = s.get ⟨i, his⟩ := by rw [← hget, htake]
    _ ≤ s.get ⟨m, hm⟩ := hle
    _ = s.getD m 0 := hgd.symm
    _ ≤ t := ht
  have h1 : (s.take (m + 1)).countP (fun x => decide (x ≤ t)) = m + 1 := by
    rw [List.countP_eq_length.mpr hall, hlen]
  have h2 : countLE t s =
      (s.take (m + 1)).countP (fun x => decide (x ≤ t)) +
        (s.drop (m + 1)).countP (fun x => decide (x ≤ t)) := by
    rw [countLE, ← List.countP_append, List.take_append_drop]
  omega

/-! ## Claims -/

/-- C1: for every threshold and MEV value, the pooled policies compute
`surplus = max(0, mev - threshold)` and `keep = mev - surplus`, and
`keep + surplus = mev` holds exactly. -/
theorem c1_keep_add_surplus (t mev : ℚ) :
    surplusOf t mev = max 0 (mev - t) ∧ keepOf t mev = mev - surplusOf t mev ∧
      keepOf t mev + surplusOf t mev = mev :=
  ⟨rfl, rfl, sub_add_cancel _ _⟩

/-- C10: `gini` of a one-element array is exactly `0`, whatever the value. -/
theorem c10_gini_singleton (x : ℚ) : gini [x] = 0 := by
  unfold gini giniEps sortedArr withEps shifted amin
  by_cases h : x < 0
  · have hx : x - x + 1 / 1000000000 ≠ 0 := by
      rw [sub_self]; norm_num
    simp only [List.foldl_nil, if_pos h, List.map_cons, List.map_nil]
    simp [List.insertionSort, List.orderedInsert, cumsum, cumsumFrom, hx]
    norm_num
  · have hx : x + 1 / 1000000000 ≠ 0 := by
      push_neg at h
      positivity
    simp only [List.foldl_nil, if_neg h, List.map_cons, List.map_nil]
    simp [List.insertionSort, List.orderedInsert, cumsum, cumsumFrom]
    rw [mul_div_assoc, div_self (by rw [one_div] at hx; exact hx)]
    norm_num

/-- C2: at every block index `b` with `(b + 1) % EPOCH_SIZE = 0`, the block
iteration is the per-block step followed by the distribution step; the
distribution adds `stake[v] * (P / totalStake)` (StakePool), `P / V`
(EqualPool) and `rootWeight[v] * (P / totalRootWeight)` (RootStakePool) to
every validator `v`, then resets the pool balances to `0.0`; Baseline is
untouched by the distribution. -/
theorem c2_epoch_distribution (p : SimParams) (s : SimState)
    (b pr v : ℕ) (mev : ℚ)
    (hb : (b + 1) % p.epochSize = 0)
    (hgood : goodLengths p s)
    (hrlen : p.rootWeights.length = numValidators p)
    (hv : v < numValidators p) :
    blockStep p b pr mev s = distribute p (perBlockStep p pr mev s) ∧
      (distribute p (perBlockStep p pr mev s)).stakeE.getD v 0 =
        (perBlockStep p pr mev s).stakeE.getD v 0 +
          p.stakes.getD v 0 *
            ((perBlockStep p pr mev s).poolS / totalStake p) ∧
      (distribute p (perBlockStep p pr mev s)).equalE.getD v 0 =
        (perBlockStep p pr mev s).equalE.getD v 0 +
          (perBlockStep p pr mev s).poolQ / (numValidators p : ℚ) ∧
      (distribute p (perBlockStep p pr mev s)).rootE.getD v 0 =
        (perBlockStep p pr mev s).rootE.getD v 0 +
          p.rootWeights.getD v 0 *
            ((perBlockStep p pr mev s).poolR / totalRootWeight p) ∧
      (distribute p (perBlockStep p pr mev s)).poolS = 0 ∧
      (distribute p (perBlockStep p pr mev s)).poolQ = 0 ∧
      (distribute p (perBlockStep p pr mev s)).poolR = 0 ∧
      (distribute p (perBlockStep p pr mev s)).baseline =
        (perBlockStep p pr mev s).baseline := by
  obtain ⟨g1, g2, g3, g4⟩ := goodLengths_perBlockStep p pr mev s hgood
  obtain ⟨q1, q2, q3⟩ := distribute_pointwise p (perBlockStep p pr mev s) v
    (g2 ▸ hv) hv (g3 ▸ hv) (g4 ▸ hv) (hrlen ▸ hv)
  exact ⟨by rw [blockStep, if_pos hb], q1, q2, q3, rfl, rfl, rfl, rfl⟩

/-- C2 witness: the epoch-boundary distribution evaluated at the concrete
parameters `pW`, state `sW`, block index 1, proposer 0, validator 1,
MEV value 6. -/
theorem c2_epoch_distribution_witness :
    blockStep pW 1 0 6 sW = distribute pW (perBlockStep pW 0 6 sW) ∧
      (distribute pW (perBlockStep pW 0 6 sW)).stakeE.getD 1 0 =
        (perBlockStep pW 0 6 sW).stakeE.getD 1 0 +
          pW.stakes.getD 1 0 *
            ((perBlockStep pW 0 6 sW).poolS / totalStake pW) ∧
      (distribute pW (perBlockStep pW 0 6 sW)).equalE.getD 1 0 =
        (perBlockStep pW 0 6 sW).equalE.getD 1 0 +
          (perBlockStep pW 0 6 sW).poolQ / (numValidators pW : ℚ) ∧
      (distribute pW (perBlockStep pW 0 6 sW)).rootE.getD 1 0 =
        (perBlockStep pW 0 6 sW).rootE.getD 1 0 +
          pW.rootWeights.getD 1 0 *
            ((perBlockStep pW 0 6 sW).poolR / totalRootWeight pW) ∧
      (distribute pW (perBlockStep pW 0 6 sW)).poolS = 0 ∧
      (distribute pW (perBlockStep pW 0 6 sW)).poolQ = 0 ∧
      (distribute pW (perBlockStep pW 0 6 sW)).poolR = 0 ∧
      (distribute pW (perBlockStep pW 0 6 sW)).baseline =
        (perBlockStep pW 0 6 sW).baseline :=
  c2_epoch_distribution pW sW 1 0 1 6 rfl ⟨rfl, rfl, rfl, rfl⟩ rfl
    (by norm_num [numValidators, pW])

/-- C3: immediately after a distribution step, all three pool balances are
exactly `0.0`, and for each pooled policy the total amount added across the
validator set equals the pre-distribution pool balance (proved exactly over
`ℚ`, which implies the spec's floating-point tolerance). -/
theorem c3_pool_conservation (p : SimParams) (s : SimState)
    (hs : s.stakeE.length = p.stakes.length)
    (he : s.equalE.length = numValidators p)
    (hr : s.rootE.length = p.rootWeights.length)
    (hS : totalStake p ≠ 0) (hV : numValidators p ≠ 0)
    (hR : totalRootWeight p ≠ 0) :
    (distribute p s).poolS = 0 ∧ (distribute p s).poolQ = 0 ∧
      (distribute p s).poolR = 0 ∧
      (distribute p s).stakeE.sum = s.stakeE.sum + s.poolS ∧
      (distribute p s).equalE.sum = s.equalE.sum + s.poolQ ∧
      (distribute p s).rootE.sum = s.rootE.sum + s.poolR :=
  ⟨rfl, rfl, rfl, distribute_stakeE_sum p s hs hS,
    distribute_equalE_sum p s he hV, distribute_rootE_sum p s hr hR⟩

/-- C3 witness: the distribution step evaluated at the concrete parameters
`pW` and state `sW` (pools 7, 8, 9). -/
theorem c3_pool_conservation_witness :
    (distribute pW sW).poolS = 0 ∧ (distribute pW sW).poolQ = 0 ∧
      (distribute pW sW).poolR = 0 ∧
      (distribute pW sW).stakeE.sum = sW.stakeE.sum + sW.poolS ∧
      (distribute pW sW).equalE.sum = sW.equalE.sum + sW.poolQ ∧
      (distribute pW sW).rootE.sum = sW.rootE.sum + sW.poolR :=
  c3_pool_conservation pW sW rfl rfl rfl
    (by norm_num [totalStake, pW]) (by norm_num [numValidators, pW])
    (by norm_num [totalRootWeight, pW])

/-- C4: at run end, for each pooled policy, the sum of its final earnings
plus its undistributed residual pool balance equals the sum of all MEV
values (proved exactly over `ℚ`); the residual pool appears as a separate
term because `run` performs no final flush after the main loop. -/
theorem c4_total_conservation (p : SimParams) (blocks : List (ℕ × ℚ))
    (hprop : ∀ pm ∈ blocks, pm.1 < numValidators p)
    (hS : totalStake p ≠ 0) (hV : numValidators p ≠ 0)
    (hR : totalRootWeight p ≠ 0)
    (hrlen : p.rootWeights.length = numValidators p) :
    (run p blocks).stakeE.sum + (run p blocks).poolS =
        (blocks.map Prod.snd).sum ∧
      (run p blocks).equalE.sum + (run p blocks).poolQ =
        (blocks.map Prod.snd).sum ∧
      (run p blocks).rootE.sum + (run p blocks).poolR =
        (blocks.map Prod.snd).sum := by
  have hgood : goodLengths p (initState (numValidators p)) := by
    refine ⟨?_, ?_, ?_, ?_⟩ <;> simp [initState]
  obtain ⟨-, -, e1, e2, e3⟩ :=
    runFrom_sums p hS hV hR hrlen blocks 0 _ hgood hprop
  refine ⟨?_, ?_, ?_⟩
  · simpa [run, initState] using e1
  · simpa [run, initState] using e2
  · simpa [run, initState] using e3

/-- C4 witness: the conservation identity evaluated at the concrete
parameters `pW` and block sequence `blocksW` (MEV total 18, with a residual
pool after the last, partial epoch). -/
theorem c4_total_conservation_witness :
    (run pW blocksW).stakeE.sum + (run pW blocksW).poolS =
        (blocksW.map Prod.snd).sum ∧
      (run pW blocksW).equalE.sum + (run pW blocksW).poolQ =
        (blocksW.map Prod.snd).sum ∧
      (run pW blocksW).rootE.sum + (run pW blocksW).poolR =
        (blocksW.map Prod.snd).sum :=
  c4_total_conservation pW blocksW
    (by
      intro pm hm
      simp only [blocksW, List.mem_cons, List.not_mem_nil, or_false] at hm
      rcases hm with h | h | h <;> subst h <;> norm_num [numValidators, pW])
    (by norm_num [totalStake, pW]) (by norm_num [numValidators, pW])
    (by norm_num [totalRootWeight, pW]) rfl

/-- C5: Baseline credits the full MEV value of every block to its proposer
(no threshold split, no pool interaction, untouched by distributions), so
Baseline's total final earnings equal the sum of all MEV values (proved
exactly over `ℚ`). -/
theorem c5_baseline_threshold_blind (p : SimParams)
    (blocks : List (ℕ × ℚ))
    (hprop : ∀ pm ∈ blocks, pm.1 < numValidators p) :
    (∀ pr mev s, (perBlockStep p pr mev s).baseline =
        addAt s.baseline pr mev) ∧
      (∀ t : SimState, (distribute p t).baseline = t.baseline) ∧
      (run p blocks).baseline.sum = (blocks.map Prod.snd).sum := by
  refine ⟨fun _ _ _ => rfl, fun _ => rfl, ?_⟩
  obtain ⟨-, h⟩ := runFrom_baseline p blocks 0 (initState (numValidators p))
    (fun pm hm => by simpa [initState] using hprop pm hm)
  simpa [run, initState] using h

/-- C5 witness: Baseline's run total at the concrete parameters `pW` and
block sequence `blocksW`. -/
theorem c5_baseline_witness :
    (run pW blocksW).baseline.sum = (blocksW.map Prod.snd).sum :=
  (c5_baseline_threshold_blind pW blocksW
    (by
      intro pm hm
      simp only [blocksW, List.mem_cons, List.not_mem_nil, or_false] at hm
      rcases hm with h | h | h <;> subst h <;> norm_num [numValidators, pW])).2.2

/-- C6 counterexample: with the all-equal MEV sequence `[5,5,5,5]` (B = 4),
the median threshold is `5` and all 4 blocks satisfy `mev ≤ threshold` —
not "exactly half (±1)" (which would allow at most 3). -/
theorem c6_counterexample :
    ¬ (countLE (median [(5 : ℚ), 5, 5, 5]) [(5 : ℚ), 5, 5, 5] ≤
        [(5 : ℚ), 5, 5, 5].length / 2 + 1) := by
  norm_num [countLE, median, List.insertionSort, List.orderedInsert,
    List.countP, List.countP.go]

/-- C6 amended: with threshold = median, at least `⌈B/2⌉` of the blocks
satisfy `mevValue ≤ threshold`, for every sequence with `B ≥ 1`; the count
can exceed half (up to `B`) when values tie with the median, so "exactly
half ± 1" does not hold in general. -/
theorem c6_median_at_least_half (l : List ℚ) (h : l ≠ []) :
    (l.length + 1) / 2 ≤ countLE (median l) l := by
  have hperm : (l.insertionSort (· ≤ ·)).Perm l := List.perm_insertionSort _ l
  have hsort : (l.insertionSort (· ≤ ·)).Sorted (· ≤ ·) :=
    List.sorted_insertionSort _ l
  have hslen : (l.insertionSort (· ≤ ·)).length = l.length := hperm.length_eq
  have hcount : countLE (median l) l =
      countLE (median l) (l.insertionSort (· ≤ ·)) := by
    rw [countLE, countLE]
    exact (hperm.countP_eq _).symm
  have hn : 1 ≤ l.length := List.length_pos.mpr h
  rw [hcount]
  by_cases hodd : l.length % 2 = 1
  · have hmed : median l =
        (l.insertionSort (· ≤ ·)).getD (l.length / 2) 0 := by
      rw [median]
      simp only [if_pos hodd]
    have hm : l.length / 2 < (l.insertionSort (· ≤ ·)).length := by
      rw [hslen]
      omega
    have hge := countP_ge_of_sorted (l.insertionSort (· ≤ ·)) hsort
      (l.length / 2) hm (median l) (le_of_eq hmed.symm)
    omega
  · have hk : 1 ≤ l.length / 2 := by omega
    have hm : l.length / 2 - 1 < (l.insertionSort (· ≤ ·)).length := by
      rw [hslen]
      omega
    have hm2 : l.length / 2 < (l.insertionSort (· ≤ ·)).length := by
      rw [hslen]
      omega
    have hmed : median l =
        ((l.insertionSort (· ≤ ·)).getD (l.length / 2 - 1) 0 +
          (l.insertionSort (· ≤ ·)).getD (l.length / 2) 0) / 2 := by
      rw [median]
      simp only [if_neg hodd]
    have hle : (l.insertionSort (· ≤ ·)).getD (l.length / 2 - 1) 0 ≤
        (l.insertionSort (· ≤ ·)).getD (l.length / 2) 0 := by
      rw [List.getD_eq_getElem _ 0 hm, List.getD_eq_getElem _ 0 hm2]
      have := hsort.rel_get_of_le
        (show (⟨l.length / 2 - 1, hm⟩ :
            Fin (l.insertionSort (· ≤ ·)).length) ≤ ⟨l.length / 2, hm2⟩ from
          by simp only [Fin.mk_le_mk]; omega)
      simpa [List.get_eq_getElem] using this
    have hmed_ge : (l.insertionSort (· ≤ ·)).getD (l.length / 2 - 1) 0 ≤
        median l := by
      rw [hmed]
      linarith
    have hge := countP_ge_of_sorted (l.insertionSort (· ≤ ·)) hsort
      (l.length / 2 - 1) hm (median l) hmed_ge
    omega

/-- C6 amended witness: the median lower bound evaluated at the concrete
sequence `[1, 3, 2]` (B = 3, median 2, count of values ≤ 2 is 2 ≥ 2). -/
theorem c6_median_at_least_half_witness :
    ([(1 : ℚ), 3, 2].length + 1) / 2 ≤
      countLE (median [(1 : ℚ), 3, 2]) [(1 : ℚ), 3, 2] :=
  c6_median_at_least_half [(1 : ℚ), 3, 2] (by simp)

/-- C7 counterexample: `gini` is not exactly invariant under scaling, because
the epsilon term `1e-9` is added after scaling: `gini (2 * [0,1]) =
10^9 / (2·10^9 + 2)` while `gini [0,1] = 10^9 / (2·10^9 + 4)`. -/
theorem c7_counterexample :
    gini (([(0 : ℚ), 1]).map (fun x => 2 * x)) ≠ gini [(0 : ℚ), 1] := by
  norm_num [gini, giniEps, sortedArr, withEps, shifted, amin, cumsum,
    cumsumFrom, min_def, List.insertionSort, List.orderedInsert]

/-- C7 amended: `gini` is scale-invariant once the epsilon term is scaled
along with the array — for every `c > 0`,
`giniEps (c * eps) (c * arr) = giniEps eps arr`; with the fixed epsilon
`1e-9` exact invariance fails (see the counterexample). -/
theorem c7_gini_scale (c eps : ℚ) (arr : List ℚ) (hc : 0 < c) :
    giniEps (c * eps) (arr.map (fun x => c * x)) = giniEps eps arr := by
  have hc0 : (0 : ℚ) ≤ c := le_of_lt hc
  have hmin := amin_map_mul c hc0 arr
  have hsh : shifted (arr.map (fun x => c * x)) =
      (shifted arr).map (fun x => c * x) := by
    rw [shifted, shifted, hmin]
    by_cases h : amin arr < 0
    · rw [if_pos h, if_pos (by nlinarith : c * amin arr < 0),
        List.map_map, List.map_map]
      refine congrArg₂ _ ?_ rfl
      funext x
      simp [mul_sub]
    · push_neg at h
      rw [if_neg (not_lt.mpr h), if_neg (not_lt.mpr (by positivity))]
  have hwe : withEps (c * eps) (arr.map (fun x => c * x)) =
      (withEps eps arr).map (fun x => c * x) := by
    rw [withEps, withEps, hsh, List.map_map, List.map_map]
    refine congrArg₂ _ ?_ rfl
    funext x
    simp [mul_add]
  have hsort : sortedArr (c * eps) (arr.map (fun x => c * x)) =
      (sortedArr eps arr).map (fun x => c * x) := by
    rw [sortedArr, sortedArr, hwe, insertionSort_map_mul c hc]
  have hlast : ((cumsum (sortedArr eps arr)).map (fun x => c * x)).getLastD 0 =
      c * (cumsum (sortedArr eps arr)).getLastD 0 := by
    have h := getLastD_map_mul c (cumsum (sortedArr eps arr)) 0
    rwa [mul_zero] at h
  simp only [giniEps, hsort, List.length_map, hlast, cumsum_map_mul,
    sum_map_mul]
  rw [show (2 : ℚ) * (c * (cumsum (sortedArr eps arr)).sum) =
      c * (2 * (cumsum (sortedArr eps arr)).sum) from by ring,
    mul_div_mul_left _ _ (ne_of_gt hc)]

/-- C7 amended witness: the scaled-epsilon invariance evaluated at `c = 2`,
`eps = 1e-9`, array `[0, 1]`. -/
theorem c7_gini_scale_witness :
    (0 : ℚ) < 2 ∧
      giniEps (2 * (1 / 1000000000))
          ([(0 : ℚ), 1].map (fun x => 2 * x)) =
        giniEps (1 / 1000000000) [(0 : ℚ), 1] :=
  ⟨by norm_num, c7_gini_scale 2 (1 / 1000000000) [(0 : ℚ), 1] (by norm_num)⟩

/-- C8: for every non-empty array, `0 ≤ gini arr < 1`; moreover `gini` of an
all-equal array is exactly `0` (stronger than the spec's "approximately 0
within the epsilon bound"). -/
theorem c8_gini_bounds (arr : List ℚ) (h : arr ≠ []) :
    0 ≤ gini arr ∧ gini arr < 1 ∧
      ∀ x : ℚ, (∀ y ∈ arr, y = x) → gini arr = 0 := by
  obtain ⟨h1, h2⟩ := giniEps_bounds (1 / 1000000000) (by norm_num) arr h
  exact ⟨h1, h2,
    fun x hx => giniEps_const (1 / 1000000000) (by norm_num) arr h x hx⟩

/-- C8 witness: the bounds and all-equal case evaluated at the concrete
array `[3, 3]`. -/
theorem c8_gini_bounds_witness :
    0 ≤ gini [(3 : ℚ), 3] ∧ gini [(3 : ℚ), 3] < 1 ∧ gini [(3 : ℚ), 3] = 0 := by
  obtain ⟨h1, h2, h3⟩ := c8_gini_bounds [(3 : ℚ), 3] (by simp)
  refine ⟨h1, h2, h3 3 ?_⟩
  intro y hy
  rcases List.mem_cons.mp hy with rfl | hy2
  · rfl
  · rcases List.mem_cons.mp hy2 with rfl | hy3
    · rfl
    · simp at hy3

/-- C9 counterexample: the configuration with `NUM_BLOCKS = 0` (all other
constants as shipped) is invalid in the spec's sense, yet the setup section
reports no configuration error for it. -/
theorem c9_counterexample :
    ¬ specValidConfig { defaultConfig with numBlocksC := 0 } ∧
      configCheck { defaultConfig with numBlocksC := 0 } = none := by
  exact ⟨by decide, rfl⟩

/-- C9 amended: the parameter-setup section performs no configuration
validation at all (it reports no error for any configuration); the shipped
configuration constants are themselves valid, so the invalid-configuration
path never arises in the program as written. -/
theorem c9_amended :
    (∀ c : Config, configCheck c = none) ∧ specValidConfig defaultConfig :=
  ⟨fun _ => rfl, by decide⟩

end MevSim
